import Mathlib

/-!
# Verification of the cat-view photo retrieval / pagination layer

A shallow embedding of the photo-service code of the `cat-view` repository
(`src/app/services/photo.service.ts`, `src/app/services/s3.service.ts`,
`src/app/pages/photos/photos.component.ts`) together with proofs about it.

Conventions of the embedding:
* a JavaScript `Date` (an instant) is an `Int`: milliseconds since the Unix
  epoch, UTC;
* `Date.UTC(y, m, d, h, mi, s)` and the `getUTC*` accessors are modelled by an
  executable proleptic-Gregorian calendar (`daysFromCivil` / `civilFromDays0`
  below).  The model covers years ≥ 0, which contains the whole space of
  `cat_YYYYMMDD_HHMMSS` filenames (four-digit years) and every instant the
  services handle;
* the S3 `ListObjectsV2` endpoint is modelled by a deterministic store value
  (`Store`): the full ascending key list per request, paged by `MaxKeys`;
* `async/await` code is sequential (the services await every call), so each
  method becomes a pure function; `while` loops that are not structurally
  bounded take a fuel parameter, `none` meaning the loop did not finish.
-/

set_option maxRecDepth 40000

namespace CatView

/-! ## Calendar model (JS `Date.UTC` / `getUTC*` semantics, proleptic Gregorian) -/

/-- Gregorian leap-year rule (as implemented by JS `Date`). -/
def isLeap (y : Nat) : Bool :=
  (y % 4 == 0 && y % 100 != 0) || y % 400 == 0

/-- Number of days of year `y`. -/
def daysInYear (y : Nat) : Nat :=
  if isLeap y then 366 else 365

/-- Days in the years `0, 1, …, y-1`, i.e. the rata-die (day number counted
from 0000-01-01) of the first day of year `y`. Closed form. -/
def daysBeforeYear (y : Nat) : Nat :=
  365 * y + (y + 3) / 4 - (y + 99) / 100 + (y + 399) / 400

theorem isLeap_iff (y : Nat) :
    isLeap y = true ↔ ((y % 4 = 0 ∧ y % 100 ≠ 0) ∨ y % 400 = 0) := by
  unfold isLeap
  simp [Bool.or_eq_true, Bool.and_eq_true, beq_iff_eq, bne_iff_ne]

set_option maxHeartbeats 1000000 in
theorem daysBeforeYear_succ (y : Nat) :
    daysBeforeYear (y + 1) = daysBeforeYear y + daysInYear y := by
  unfold daysBeforeYear daysInYear
  by_cases h : isLeap y = true
  · rw [if_pos h]
    have := (isLeap_iff y).mp h
    omega
  · rw [if_neg h]
    have h2 : ¬((y % 4 = 0 ∧ y % 100 ≠ 0) ∨ y % 400 = 0) := fun hc => h ((isLeap_iff y).mpr hc)
    omega

theorem daysInYear_le (y : Nat) : daysInYear y ≤ 366 := by
  unfold daysInYear; split <;> omega

theorem le_daysInYear (y : Nat) : 365 ≤ daysInYear y := by
  unfold daysInYear; split <;> omega

theorem daysBeforeYear_mono : Monotone daysBeforeYear := by
  apply monotone_nat_of_le_succ
  intro y
  rw [daysBeforeYear_succ]
  omega

set_option maxHeartbeats 1000000 in
theorem daysBeforeYear_era (e r : Nat) :
    daysBeforeYear (400 * e + r) = 146097 * e + daysBeforeYear r := by
  unfold daysBeforeYear
  omega

theorem daysBeforeYear_400 : daysBeforeYear 400 = 146097 := by
  norm_num [daysBeforeYear]

/-- Length of month `m` (1-indexed) in a year with leap flag `leap`
(values outside 1..12 take the catch-all 31 branch; the services only use
months produced by the calendar conversions, which are in range). -/
def daysInMonth (leap : Bool) (m : Nat) : Nat :=
  if m = 2 then (if leap then 29 else 28)
  else if m = 4 ∨ m = 6 ∨ m = 9 ∨ m = 11 then 30
  else 31

theorem daysInMonth_pos (leap : Bool) (m : Nat) : 0 < daysInMonth leap m := by
  unfold daysInMonth
  split
  · split <;> omega
  · split <;> omega

/-- Days in the months `1, …, m-1` of a year with leap flag `leap`
(day-of-year of the first day of month `m`, for `m ∈ [1, 13]`). -/
def daysBeforeMonth (leap : Bool) : Nat → Nat
  | 0 => 0
  | 1 => 0
  | m + 2 => daysBeforeMonth leap (m + 1) + daysInMonth leap (m + 1)

theorem daysBeforeMonth_le_succ (leap : Bool) (m : Nat) :
    daysBeforeMonth leap m ≤ daysBeforeMonth leap (m + 1) := by
  match m with
  | 0 => simp [daysBeforeMonth]
  | m + 1 =>
    show daysBeforeMonth leap (m + 1) ≤ daysBeforeMonth leap (m + 1) + daysInMonth leap (m + 1)
    omega

theorem daysBeforeMonth_mono (leap : Bool) : Monotone (daysBeforeMonth leap) :=
  monotone_nat_of_le_succ (daysBeforeMonth_le_succ leap)

theorem daysBeforeMonth_succ_of_pos (leap : Bool) (m : Nat) (h : 1 ≤ m) :
    daysBeforeMonth leap (m + 1) = daysBeforeMonth leap m + daysInMonth leap m := by
  match m, h with
  | m + 1, _ => rfl

theorem daysBeforeMonth_13 (leap : Bool) :
    daysBeforeMonth leap 13 = if leap then 366 else 365 := by
  cases leap <;> rfl

/-- Rata die (days since 0000-01-01) of the civil date `y-m-d`
(valid for `1 ≤ m ≤ 12`, `1 ≤ d ≤ daysInMonth`). -/
def daysFromCivil (y m d : Nat) : Nat :=
  daysBeforeYear y + daysBeforeMonth (isLeap y) m + (d - 1)

/-- Largest year-of-era (0..399) whose first day is at or before day-of-era `doe`. -/
def yearOfEra (doe : Nat) : Nat :=
  Nat.findGreatest (fun r => daysBeforeYear r ≤ doe) 399

/-- The year containing rata-die day `days0`, via 400-year eras. -/
def yearFromDays0 (days0 : Nat) : Nat :=
  400 * (days0 / 146097) + yearOfEra (days0 % 146097)

/-- The month (1..12) containing day-of-year `doy` (0-based) of a year with
leap flag `leap`. -/
def monthFromDoy (leap : Bool) (doy : Nat) : Nat :=
  Nat.findGreatest (fun m => daysBeforeMonth leap m ≤ doy) 12

/-- Day-of-year (0-based) of rata-die day `days0`. -/
def doyFromDays0 (days0 : Nat) : Nat :=
  days0 - daysBeforeYear (yearFromDays0 days0)

/-- Civil date `(y, m, d)` of rata-die day `days0` (inverse of `daysFromCivil`). -/
def civilFromDays0 (days0 : Nat) : Nat × Nat × Nat :=
  (yearFromDays0 days0,
   monthFromDoy (isLeap (yearFromDays0 days0)) (doyFromDays0 days0),
   doyFromDays0 days0
     - daysBeforeMonth (isLeap (yearFromDays0 days0))
         (monthFromDoy (isLeap (yearFromDays0 days0)) (doyFromDays0 days0)) + 1)

theorem yearFromDays0_eq (y days0 : Nat)
    (h1 : daysBeforeYear y ≤ days0) (h2 : days0 < daysBeforeYear (y + 1)) :
    yearFromDays0 days0 = y := by
  obtain ⟨e, r, hr, rfl⟩ : ∃ e r, r ≤ 399 ∧ y = 400 * e + r :=
    ⟨y / 400, y % 400, by omega, by omega⟩
  have hera : daysBeforeYear (400 * e + r) = 146097 * e + daysBeforeYear r :=
    daysBeforeYear_era e r
  have hsucc : daysBeforeYear (400 * e + r + 1) = 146097 * e + daysBeforeYear (r + 1) := by
    have : 400 * e + r + 1 = 400 * e + (r + 1) := by omega
    rw [this, daysBeforeYear_era]
  have hub : daysBeforeYear (r + 1) ≤ 146097 := by
    have := daysBeforeYear_mono (show r + 1 ≤ 400 by omega)
    simpa [daysBeforeYear_400] using this
  have hlow : 146097 * e + daysBeforeYear r ≤ days0 := by omega
  have hhigh : days0 < 146097 * e + daysBeforeYear (r + 1) := by omega
  have hdiv : days0 / 146097 = e := by omega
  have hmod : days0 % 146097 = days0 - 146097 * e := by omega
  have hdoe1 : daysBeforeYear r ≤ days0 % 146097 := by omega
  have hdoe2 : days0 % 146097 < daysBeforeYear (r + 1) := by omega
  have hyoe : yearOfEra (days0 % 146097) = r := by
    unfold yearOfEra
    have hle : r ≤ Nat.findGreatest (fun x => daysBeforeYear x ≤ days0 % 146097) 399 :=
      Nat.le_findGreatest hr hdoe1
    have hge : Nat.findGreatest (fun x => daysBeforeYear x ≤ days0 % 146097) 399 ≤ 399 :=
      Nat.findGreatest_le 399
    by_contra hne
    have hgt : r < Nat.findGreatest (fun x => daysBeforeYear x ≤ days0 % 146097) 399 := by omega
    have hspec : daysBeforeYear (Nat.findGreatest (fun x => daysBeforeYear x ≤ days0 % 146097) 399)
        ≤ days0 % 146097 :=
      Nat.findGreatest_spec (P := fun x => daysBeforeYear x ≤ days0 % 146097)
        (m := r) (by omega) hdoe1
    have := daysBeforeYear_mono (show r + 1 ≤ Nat.findGreatest
      (fun x => daysBeforeYear x ≤ days0 % 146097) 399 by omega)
    omega
  unfold yearFromDays0
  omega

theorem monthFromDoy_eq (leap : Bool) (m d : Nat)
    (hm1 : 1 ≤ m) (hm2 : m ≤ 12) (hd1 : 1 ≤ d) (hd2 : d ≤ daysInMonth leap m) :
    monthFromDoy leap (daysBeforeMonth leap m + d - 1) = m := by
  set doy := daysBeforeMonth leap m + d - 1 with hdoy
  have hP : daysBeforeMonth leap m ≤ doy := by omega
  unfold monthFromDoy
  have hle : m ≤ Nat.findGreatest (fun x => daysBeforeMonth leap x ≤ doy) 12 :=
    Nat.le_findGreatest hm2 hP
  have hge : Nat.findGreatest (fun x => daysBeforeMonth leap x ≤ doy) 12 ≤ 12 :=
    Nat.findGreatest_le 12
  by_contra hne
  have hgt : m < Nat.findGreatest (fun x => daysBeforeMonth leap x ≤ doy) 12 := by omega
  have hspec : daysBeforeMonth leap (Nat.findGreatest (fun x => daysBeforeMonth leap x ≤ doy) 12)
      ≤ doy :=
    Nat.findGreatest_spec (P := fun x => daysBeforeMonth leap x ≤ doy) (m := m) hm2 hP
  have hstep : daysBeforeMonth leap (m + 1) = daysBeforeMonth leap m + daysInMonth leap m :=
    daysBeforeMonth_succ_of_pos leap m hm1
  have := daysBeforeMonth_mono leap (show m + 1 ≤ Nat.findGreatest
    (fun x => daysBeforeMonth leap x ≤ doy) 12 by omega)
  omega

/-- A valid civil date: month in 1..12, day in 1..month length. -/
def ValidDate (y m d : Nat) : Prop :=
  1 ≤ m ∧ m ≤ 12 ∧ 1 ≤ d ∧ d ≤ daysInMonth (isLeap y) m

instance (y m d : Nat) : Decidable (ValidDate y m d) := by
  unfold ValidDate; infer_instance

theorem doy_lt_daysInYear (y m d : Nat) (h : ValidDate y m d) :
    daysBeforeMonth (isLeap y) m + d - 1 < daysInYear y := by
  obtain ⟨hm1, hm2, hd1, hd2⟩ := h
  have hstep : daysBeforeMonth (isLeap y) (m + 1)
      = daysBeforeMonth (isLeap y) m + daysInMonth (isLeap y) m :=
    daysBeforeMonth_succ_of_pos (isLeap y) m hm1
  have hmono := daysBeforeMonth_mono (isLeap y) (show m + 1 ≤ 13 by omega)
  have h13 : daysBeforeMonth (isLeap y) 13 = daysInYear y := by
    rw [daysBeforeMonth_13]; unfold daysInYear; rfl
  omega

/-- The calendar round-trip: converting a valid civil date to its rata die and
back recovers the date.  This is the load-bearing fact behind the
`parseTimestamp` round-trip. -/
theorem civilFromDays0_daysFromCivil (y m d : Nat) (h : ValidDate y m d) :
    civilFromDays0 (daysFromCivil y m d) = (y, m, d) := by
  obtain ⟨hm1, hm2, hd1, hd2⟩ := h
  have hdoy : daysBeforeMonth (isLeap y) m + d - 1 < daysInYear y :=
    doy_lt_daysInYear y m d ⟨hm1, hm2, hd1, hd2⟩
  have h1 : daysBeforeYear y ≤ daysFromCivil y m d := by
    unfold daysFromCivil; omega
  have h2 : daysFromCivil y m d < daysBeforeYear (y + 1) := by
    unfold daysFromCivil
    rw [daysBeforeYear_succ]
    omega
  have hy : yearFromDays0 (daysFromCivil y m d) = y := yearFromDays0_eq y _ h1 h2
  have hdoyeq : doyFromDays0 (daysFromCivil y m d)
      = daysBeforeMonth (isLeap y) m + d - 1 := by
    unfold doyFromDays0
    rw [hy]
    unfold daysFromCivil
    omega
  have hm : monthFromDoy (isLeap y) (daysBeforeMonth (isLeap y) m + d - 1) = m :=
    monthFromDoy_eq (isLeap y) m d hm1 hm2 hd1 hd2
  unfold civilFromDays0
  rw [hy, hdoyeq, hm]
  simp only [Prod.mk.injEq, true_and]
  omega

/-! ### Milliseconds-level time model -/

/-- Milliseconds since 0000-01-01T00:00:00Z of a civil datetime. -/
def msOfFields (y m d h mi s : Nat) : Nat :=
  86400000 * daysFromCivil y m d + 3600000 * h + 60000 * mi + 1000 * s

/-- The `getUTC*` accessors on a year-0-based millisecond count:
`(year, month 1..12, day, hour, minute, second)`. -/
def fieldsOfMs (n : Nat) : Nat × Nat × Nat × Nat × Nat × Nat :=
  ((civilFromDays0 (n / 86400000)).1,
   (civilFromDays0 (n / 86400000)).2.1,
   (civilFromDays0 (n / 86400000)).2.2,
   n % 86400000 / 3600000,
   n % 3600000 / 60000,
   n % 60000 / 1000)

/-- A valid civil datetime down to seconds. -/
def ValidDateTime (y m d h mi s : Nat) : Prop :=
  ValidDate y m d ∧ h < 24 ∧ mi < 60 ∧ s < 60

instance (y m d h mi s : Nat) : Decidable (ValidDateTime y m d h mi s) := by
  unfold ValidDateTime; infer_instance

theorem fieldsOfMs_msOfFields (y m d h mi s : Nat) (hv : ValidDateTime y m d h mi s) :
    fieldsOfMs (msOfFields y m d h mi s) = (y, m, d, h, mi, s) := by
  obtain ⟨hd, hh, hmi, hs⟩ := hv
  have htod : 3600000 * h + 60000 * mi + 1000 * s < 86400000 := by omega
  have hday : msOfFields y m d h mi s / 86400000 = daysFromCivil y m d := by
    unfold msOfFields; omega
  unfold fieldsOfMs
  rw [hday, civilFromDays0_daysFromCivil y m d hd]
  unfold msOfFields
  simp only [Prod.mk.injEq, true_and]
  omega

/-- Rata-die day number of 1970-01-01 (the Unix epoch): 719528. -/
def epochShiftDays : Nat := daysBeforeYear 1970

/-- `Date.UTC(y, m-1, d, h, mi, s)` for an in-range civil datetime:
milliseconds since the Unix epoch (`Int`, may be negative before 1970). -/
def utcMsOfFields (y m d h mi s : Nat) : Int :=
  (msOfFields y m d h mi s : Int) - (epochShiftDays : Int) * 86400000

/-- The `getUTC*` accessors of a JS `Date` holding epoch milliseconds `t`
(model valid for years ≥ 0, i.e. `t ≥ -epochShiftDays` days). -/
def utcFieldsOfMs (t : Int) : Nat × Nat × Nat × Nat × Nat × Nat :=
  fieldsOfMs (t + (epochShiftDays : Int) * 86400000).toNat

theorem utcFieldsOfMs_utcMsOfFields (y m d h mi s : Nat) (hv : ValidDateTime y m d h mi s) :
    utcFieldsOfMs (utcMsOfFields y m d h mi s) = (y, m, d, h, mi, s) := by
  unfold utcFieldsOfMs utcMsOfFields
  have h1 : ((msOfFields y m d h mi s : Int) - (epochShiftDays : Int) * 86400000
      + (epochShiftDays : Int) * 86400000).toNat = msOfFields y m d h mi s := by
    omega
  rw [h1]
  exact fieldsOfMs_msOfFields y m d h mi s hv

/-! ### Digit strings and the filename regex

`PHOTO_PATTERN = /cat_(\d{8})_(\d{6})\.jpg$/` — `String.match` scans for the
first position at which the pattern matches; `$` anchors the end. -/

/-- Numeric value of a digit character. -/
def digitVal (c : Char) : Nat := c.toNat - 48

/-- `parseInt` on a string of decimal digits. -/
def natOfDigits (l : List Char) : Nat :=
  l.foldl (fun a c => 10 * a + digitVal c) 0

/-- Fixed-width decimal rendering (`k` digits, most significant first). -/
def padDigits : Nat → Nat → List Char
  | 0, _ => []
  | k + 1, n => padDigits k (n / 10) ++ [Char.ofNat (48 + n % 10)]

theorem natOfDigits_append (l : List Char) (c : Char) :
    natOfDigits (l ++ [c]) = 10 * natOfDigits l + digitVal c := by
  unfold natOfDigits
  rw [List.foldl_append]
  rfl

theorem digit_char_bounds (c : Char) (h : c.isDigit = true) :
    48 ≤ c.toNat ∧ c.toNat ≤ 57 := by
  unfold Char.isDigit at h
  simp only [Bool.and_eq_true, decide_eq_true_eq] at h
  unfold Char.toNat
  exact ⟨h.1, h.2⟩

theorem ofNat_digitVal (c : Char) (h : c.isDigit = true) :
    Char.ofNat (48 + digitVal c) = c := by
  obtain ⟨h1, h2⟩ := digit_char_bounds c h
  have : 48 + digitVal c = c.toNat := by unfold digitVal; omega
  rw [this, Char.ofNat_toNat]

/-- Rendering the numeric value of a digit string at the same width
reproduces the string. -/
theorem padDigits_natOfDigits (l : List Char) (hd : ∀ c ∈ l, c.isDigit = true) :
    padDigits l.length (natOfDigits l) = l := by
  induction l using List.reverseRecOn with
  | nil => rfl
  | append_singleton l c ih =>
    have hc : c.isDigit = true := hd c (by simp)
    have hl : ∀ x ∈ l, x.isDigit = true := fun x hx => hd x (by simp [hx])
    have hv : digitVal c < 10 := by
      obtain ⟨h1, h2⟩ := digit_char_bounds c hc
      unfold digitVal
      omega
    rw [natOfDigits_append, List.length_append]
    show padDigits (l.length + 1) (10 * natOfDigits l + digitVal c) = l ++ [c]
    unfold padDigits
    have hq : (10 * natOfDigits l + digitVal c) / 10 = natOfDigits l := by omega
    have hr : (10 * natOfDigits l + digitVal c) % 10 = digitVal c := by omega
    rw [hq, hr, ih hl, ofNat_digitVal c hc]

/-- Match a literal character sequence at the head, returning the rest. -/
def stripLit : List Char → List Char → Option (List Char)
  | [], rest => some rest
  | _ :: _, [] => none
  | e :: es, c :: cs => if c = e then stripLit es cs else none

/-- Match exactly `n` digit characters at the head. -/
def takeDigits : Nat → List Char → Option (List Char × List Char)
  | 0, rest => some ([], rest)
  | _ + 1, [] => none
  | n + 1, c :: cs =>
    if c.isDigit then (takeDigits n cs).map (fun p => (c :: p.1, p.2)) else none

/-- Try `cat_(\d{8})_(\d{6})\.jpg$` at this exact position (the `$` demands
that nothing follows). Returns the two capture groups. -/
def matchHere (l : List Char) : Option (List Char × List Char) :=
  (stripLit ['c', 'a', 't', '_'] l).bind fun r1 =>
  (takeDigits 8 r1).bind fun p8 =>
  (stripLit ['_'] p8.2).bind fun r3 =>
  (takeDigits 6 r3).bind fun p6 =>
  (stripLit ['.', 'j', 'p', 'g'] p6.2).bind fun r5 =>
  if r5 = [] then some (p8.1, p6.1) else none

/-- `fileName.match(PHOTO_PATTERN)`: first matching position, scanning left to
right; returns the capture groups `(YYYYMMDD, HHMMSS)`. -/
def matchPhotoPattern : List Char → Option (List Char × List Char)
  | [] => none
  | c :: cs =>
    match matchHere (c :: cs) with
    | some r => some r
    | none => matchPhotoPattern cs

/-- The six numeric fields `(year, month, day, hour, minute, second)` read off
the capture groups, as in `parseFileName`:
`parseInt(dateStr.substring(0,4))`, `…(4,6)`, `…(6,8)`,
`parseInt(timeStr.substring(0,2))`, `…(2,4)`, `…(4,6)`. -/
def fieldsOfDigits (d8 d6 : List Char) : Nat × Nat × Nat × Nat × Nat × Nat :=
  (natOfDigits (d8.take 4),
   natOfDigits ((d8.drop 4).take 2),
   natOfDigits ((d8.drop 6).take 2),
   natOfDigits (d6.take 2),
   natOfDigits ((d6.drop 2).take 2),
   natOfDigits ((d6.drop 4).take 2))

/-- `parseFileName` of the second and third `PhotoService` variants
(`photo.service.ts:155-171`, `s3.service.ts:263-279`): the captured digits are
fed to `Date.UTC` — the digits denote UTC wall-clock fields, so the result does
not depend on the viewer's time zone.  (The JS code passes `month - 1` because
`Date.UTC` takes 0-indexed months; the model keeps 1-indexed months
throughout, which composes to the same instant.) -/
def parseFileNameUTC (name : String) : Option Int :=
  (matchPhotoPattern name.toList).map fun p =>
    utcMsOfFields (fieldsOfDigits p.1 p.2).1 (fieldsOfDigits p.1 p.2).2.1
      (fieldsOfDigits p.1 p.2).2.2.1 (fieldsOfDigits p.1 p.2).2.2.2.1
      (fieldsOfDigits p.1 p.2).2.2.2.2.1 (fieldsOfDigits p.1 p.2).2.2.2.2.2

/-- `parseFileName` of the first `PhotoService` variant
(`photo.service.ts:25-40`): it builds `new Date(year, month, day, hour,
minute, second)` — the LOCAL-time constructor.  In a viewer time zone of fixed
offset UTC+`tzOffsetMinutes`, the instant it denotes is the UTC instant of the
same wall-clock fields shifted back by the offset. -/
def parseFileNameLocalZone (tzOffsetMinutes : Int) (name : String) : Option Int :=
  (matchPhotoPattern name.toList).map fun p =>
    utcMsOfFields (fieldsOfDigits p.1 p.2).1 (fieldsOfDigits p.1 p.2).2.1
      (fieldsOfDigits p.1 p.2).2.2.1 (fieldsOfDigits p.1 p.2).2.2.2.1
      (fieldsOfDigits p.1 p.2).2.2.2.2.1 (fieldsOfDigits p.1 p.2).2.2.2.2.2
      - tzOffsetMinutes * 60000

/-! ## Object store model (`s3.service.ts`)

The store is a deterministic value: the ascending key list it serves.  The
`ListObjectsV2` endpoint pages it by `MaxKeys`, with an opaque continuation
token modelled as the index of the next entry. -/

structure S3Obj where
  Key : String
  Size : Option Nat
deriving DecidableEq

structure S3Response where
  Contents : List S3Obj
  IsTruncated : Bool
  NextContinuationToken : Option Nat
deriving DecidableEq

structure Store where
  bucketFolder : String
  objects : List S3Obj
deriving DecidableEq

/-- `fullPrefix` computation of `S3Service.listObjects` (s3.service.ts:58):
`prefix ? bucketFolder + "/" + prefix : bucketFolder`. -/
def fullPfxOf (st : Store) (pfx : String) : String :=
  if pfx = "" then st.bucketFolder else st.bucketFolder ++ "/" ++ pfx

/-- All the store's objects under a full key prefix, in listing order.
(Key-prefix comparison char by char; `List.isPrefixOf` on the character
lists is S3's `Prefix` semantics.) -/
def pfxObjects (st : Store) (fullPfx : String) : List S3Obj :=
  st.objects.filter (fun o => fullPfx.toList.isPrefixOf o.Key.toList)

/-- The raw `ListObjectsV2` endpoint: serves up to `maxKeys` objects under
`fullPfx` starting at continuation token `tok`; a truncated page carries the
token of the next entry. -/
def listObjectsV2 (st : Store) (fullPfx : String) (maxKeys : Nat) (tok : Option Nat) :
    S3Response :=
  { Contents := ((pfxObjects st fullPfx).drop (tok.getD 0)).take maxKeys,
    IsTruncated := decide (maxKeys < ((pfxObjects st fullPfx).drop (tok.getD 0)).length),
    NextContinuationToken :=
      if maxKeys < ((pfxObjects st fullPfx).drop (tok.getD 0)).length then
        some (tok.getD 0 + maxKeys)
      else none }

/-- `S3Service.listObjects(prefix, maxKeys)` (s3.service.ts:57-68).  The
method takes NO continuation-token parameter, and the `ListObjectsV2Command`
it builds sets only `Bucket`, `Prefix` and `MaxKeys` — so the endpoint is
always hit without a token, i.e. it always serves the first page. -/
def listObjects (st : Store) (pfx : String) (maxKeys : Nat) : S3Response :=
  listObjectsV2 st (fullPfxOf st pfx) maxKeys none

/-- `S3Service.listObjectsWithPrefixes(prefixes, maxKeysPerPrefix)`
(s3.service.ts:74-79): one `listObjects` call per prefix (in parallel in the
TS; results come back in the order of `prefixes`). -/
def listObjectsWithPrefixes (st : Store) (pfxs : List String) (maxKeysPerPfx : Nat) :
    List S3Response :=
  pfxs.map (fun p => listObjects st p maxKeysPerPfx)

/-! ## Photo assembly (`photo.service.ts`) -/

structure Photo where
  key : String
  fileName : String
  timestamp : Int
  url : String
  size : Option Nat
deriving DecidableEq

/-- `String.split('/')` on the character list (JS `split` semantics: `"cat/"`
splits to `["cat", ""]`, `"abc"` to `["abc"]`). -/
def splitOnSlash : List Char → List (List Char)
  | [] => [[]]
  | c :: cs =>
    if c = '/' then [] :: splitOnSlash cs
    else
      match splitOnSlash cs with
      | [] => [[c]]
      | s :: rest => (c :: s) :: rest

/-- `key.split('/').pop()`: the basename of a key. -/
def basenameOf (key : String) : String :=
  String.mk ((splitOnSlash key.toList).getLastD [])

/-- `PHOTO_PATTERN.test(fileName)`: the regex matches somewhere. -/
def patternTest (fileName : String) : Bool :=
  (matchPhotoPattern fileName.toList).isSome

/-- The filter of `getPhotos` (photo.service.ts:249-263): basename must match
`PHOTO_PATTERN`, parse, and the timestamp must lie within
`[startDate, endDate]` inclusive.  (`PHOTO_PATTERN.test` succeeds exactly
when `parseFileName` returns non-null, so the two checks collapse.) -/
def rangeFilter (startDate endDate : Int) (o : S3Obj) : Bool :=
  match parseFileNameUTC (basenameOf o.Key) with
  | none => false
  | some t => decide (startDate ≤ t) && decide (t ≤ endDate)

/-- The filter of `getNewPhotosSince` (photo.service.ts:317-331): strictly
newer than `sinceTs`, and at most `nowTs`. -/
def newFilter (sinceTs nowTs : Int) (o : S3Obj) : Bool :=
  match parseFileNameUTC (basenameOf o.Key) with
  | none => false
  | some t => decide (sinceTs < t) && decide (t ≤ nowTs)

/-- Photo record construction (photo.service.ts:268-283).  On entries that
passed the pattern filter the non-null assertion `parseFileName(fileName)!`
is sound; `getD 0` stands for the `!`.  `urlOf` models
`s3Service.getPresignedUrl`: within the URL cache's TTL it is a stable pure
function of the key. -/
def mkPhoto (urlOf : String → String) (o : S3Obj) : Photo :=
  { key := o.Key,
    fileName := basenameOf o.Key,
    timestamp := (parseFileNameUTC (basenameOf o.Key)).getD 0,
    url := urlOf o.Key,
    size := o.Size }

/-- Stable insertion step for descending-timestamp order. -/
def insertDesc (p : Photo) : List Photo → List Photo
  | [] => [p]
  | q :: qs => if p.timestamp < q.timestamp then q :: insertDesc p qs else p :: q :: qs

/-- `photos.sort((a, b) => b.timestamp.getTime() - a.timestamp.getTime())`:
JS `Array.prototype.sort` is stable (ES2019), so with this comparator it
produces the unique stable descending-by-timestamp order, which stable
insertion sort also produces. -/
def sortDesc : List Photo → List Photo
  | [] => []
  | p :: ps => insertDesc p (sortDesc ps)

/-! ## Range fetcher (`getPhotos`, photo.service.ts:211-289; the same code
appears in the paginated variant at s3.service.ts:319-402) -/

/-- The `while (current <= end)` day loop of `getDatePrefixes`, collecting
each day's midnight (epoch ms) and stepping `current` one UTC day forward.
`count` bounds the iterations (the caller passes the exact day count, which
is what makes the TS loop terminate). -/
def dayLoop (endMs : Int) : Nat → Int → List Int
  | 0, _ => []
  | count + 1, current =>
    if current ≤ endMs then current :: dayLoop endMs count (current + 86400000) else []

/-- `String(x).padStart(2, '0')` for a natural number. -/
def padStart2 (n : Nat) : String :=
  if n < 10 then "0" ++ toString n else toString n

/-- `cat_${year}${month}${day}_` for the UTC day with epoch day number `k`
(year unpadded, month and day padded to two digits — exactly the TS template,
photo.service.ts:195-198). -/
def dayPfx (k : Int) : String :=
  "cat_" ++ toString (civilFromDays0 (k + (epochShiftDays : Int)).toNat).1
    ++ padStart2 (civilFromDays0 (k + (epochShiftDays : Int)).toNat).2.1
    ++ padStart2 (civilFromDays0 (k + (epochShiftDays : Int)).toNat).2.2
    ++ "_"

/-- `getDatePrefixes(startDate, endDate)` (photo.service.ts:179-203): from
the UTC midnight one day before `startDate` up to the UTC midnight one day
after `endDate`, inclusive, one `cat_YYYYMMDD_` prefix per day.
(`setUTCDate(getUTCDate() ± 1)` shifts by exactly ±86400000 ms — UTC days are
uniform — and `setUTCHours(0,0,0,0)` floors to midnight, so `start` holds
`(⌊startDate⌋day − 1)·86400000` and `end` holds `(⌊endDate⌋day + 1)·86400000`.) -/
def getDatePrefixes (startDate endDate : Int) : List String :=
  (dayLoop ((endDate / 86400000 + 1) * 86400000)
      ((endDate / 86400000 + 1) - (startDate / 86400000 - 1) + 1).toNat
      ((startDate / 86400000 - 1) * 86400000)).map
    (fun t => dayPfx (t / 86400000))

/-- The `while (hasMore)` listing loop of `getPhotos` for one prefix
(photo.service.ts:229-246).  The TS passes `continuationToken` as a THIRD
argument to `this.s3Service.listObjects(prefix, 1000, continuationToken)`,
but `listObjects(prefix?, maxKeys?)` declares only two parameters — the token
is silently dropped.  `tok` is threaded here exactly as the TS variable is,
and ignored exactly as the call ignores it.  `fuel` bounds the remaining
iterations; `none` means the loop did not finish. -/
def fetchLoop (st : Store) (pfx : String) (tok : Option Nat) (acc : List S3Obj)
    (fuel : Nat) : Option (List S3Obj) :=
  let response := listObjects st pfx 1000
  let acc2 := acc ++ response.Contents
  if response.IsTruncated && response.NextContinuationToken.isSome then
    match fuel with
    | 0 => none
    | fuel + 1 => fetchLoop st pfx response.NextContinuationToken acc2 fuel
  else some acc2

/-- The `for (const prefix of prefixes)` collection into `allObjects`
(photo.service.ts:226-246). -/
def collectAll (st : Store) (fuel : Nat) : List String → Option (List S3Obj)
  | [] => some []
  | pfx :: rest =>
    match fetchLoop st pfx none [] fuel with
    | none => none
    | some objs =>
      match collectAll st fuel rest with
      | none => none
      | some objs2 => some (objs ++ objs2)

/-- `getPhotos(startDate, endDate)` (photo.service.ts:211-289): collect all
pages of all date prefixes, filter to the pattern and the inclusive window,
assemble `Photo`s (presigned URLs in original order via `Promise.all`), sort
newest-first.  The TS defaulting (`endDate ?? now`, `startDate ?? end - 24h`)
is applied by the caller in this model. -/
def getPhotos (st : Store) (urlOf : String → String) (startDate endDate : Int)
    (fuel : Nat) : Option (List Photo) :=
  match collectAll st fuel (getDatePrefixes startDate endDate) with
  | none => none
  | some allObjects =>
    some (sortDesc ((allObjects.filter (rangeFilter startDate endDate)).map (mkPhoto urlOf)))

/-- `getNewPhotosSince(sinceTimestamp)` (photo.service.ts:304-355): one
UN-paged `listObjects` call per prefix (via `listObjectsWithPrefixes`),
filter to strictly-newer-than `sinceTs` (and ≤ `now`), assemble, sort
newest-first.  `nowTs` models the `new Date()` taken at entry. -/
def getNewPhotosSince (st : Store) (urlOf : String → String) (sinceTs nowTs : Int) :
    List Photo :=
  sortDesc (((((listObjectsWithPrefixes st (getDatePrefixes sinceTs nowTs) 1000).flatMap
    (fun r => r.Contents)).filter (newFilter sinceTs nowTs)).map (mkPhoto urlOf)))

/-! ## Backward paginator (`PhotoService` variant with infinite scroll,
s3.service.ts:229-622) -/

structure PagState where
  photoCache : List Photo
  currentDate : Int
  hasMorePhotos : Bool
  isLoadingMore : Bool
deriving DecidableEq

/-- `initCurrentDate` (s3.service.ts:242-252): today's UTC date at 23:59:59.
`Date.UTC(now.getUTCFullYear(), now.getUTCMonth(), now.getUTCDate(),
23, 59, 59)` is the start of `now`'s UTC day plus 86399000 ms. -/
def initCurrentDate (nowMs : Int) : Int :=
  (nowMs / 86400000) * 86400000 + 86399000

/-- The constructor / `clearCache` state (s3.service.ts:254-256 / 480-485). -/
def initPagState (nowMs : Int) : PagState :=
  { photoCache := [], currentDate := initCurrentDate nowMs,
    hasMorePhotos := true, isLoadingMore := false }

/-- The key-deduplication pass of `loadMoreDaysFromS3` (s3.service.ts:591-599):
`filter` with a mutable `seen` set keeps the first occurrence of each key. -/
def dedupSeen (seen : List String) : List Photo → List Photo
  | [] => []
  | p :: ps =>
    if p.key ∈ seen then dedupSeen seen ps else p :: dedupSeen (p.key :: seen) ps

/-- The cursor's day-bucket `cat_YYYYMMDD_` (s3.service.ts:536-539), built
from the `getUTC*` fields of `currentDate` with the same
template/`padStart` as `getDatePrefixes`. -/
def cursorPfx (currentDate : Int) : String :=
  dayPfx (currentDate / 86400000)

/-- `loadMoreDaysFromS3` (s3.service.ts:527-621).  Sequential model: the
in-flight flag makes the call a no-op when set; otherwise the day bucket at
the cursor is listed with the same `while`/continuation-token loop as
`getPhotos` (same dropped-token behaviour, here via `fetchLoop`), filtered to
the pattern, assembled, appended to the cache, deduplicated by key, sorted
newest-first; the cursor moves one day back, and `hasMorePhotos` is cleared
only when the new cursor has passed `horizonMs` (the `twoYearsAgo` value the
TS computes from the wall clock).  `none` = the listing loop did not
finish. -/
def loadMoreDaysFromS3 (st : Store) (urlOf : String → String) (horizonMs : Int)
    (fuel : Nat) (s : PagState) : Option PagState :=
  if s.isLoadingMore || !s.hasMorePhotos then some s
  else
    match fetchLoop st (cursorPfx s.currentDate) none [] fuel with
    | none => none
    | some dayObjects =>
      some { photoCache :=
               sortDesc (dedupSeen []
                 (s.photoCache ++
                   (dayObjects.filter (fun o => patternTest (basenameOf o.Key))).map
                     (mkPhoto urlOf))),
             currentDate := s.currentDate - 86400000,
             hasMorePhotos :=
               if s.currentDate - 86400000 < horizonMs then false else s.hasMorePhotos,
             isLoadingMore := false }

/-- The `while (cache too small && hasMorePhotos && !isLoadingMore)` growth
loop of `getPhotosPage` (s3.service.ts:506-508), with `loopFuel` bounding the
iterations. -/
def growLoop (st : Store) (urlOf : String → String) (horizonMs : Int)
    (innerFuel endIndex : Nat) : Nat → PagState → Option PagState
  | 0, s =>
    if s.photoCache.length < endIndex && s.hasMorePhotos && !s.isLoadingMore then none
    else some s
  | loopFuel + 1, s =>
    if s.photoCache.length < endIndex && s.hasMorePhotos && !s.isLoadingMore then
      match loadMoreDaysFromS3 st urlOf horizonMs innerFuel s with
      | none => none
      | some s2 => growLoop st urlOf horizonMs innerFuel endIndex loopFuel s2
    else some s

structure PhotoPage where
  photos : List Photo
  continuationToken : Option String
  hasMore : Bool
deriving DecidableEq

/-- `getPhotosPage(pageSize, pageIndex)` (s3.service.ts:498-521): grow the
cache until `endIndex = (pageIndex+1)*pageSize` photos are cached (or the
paginator is exhausted), then slice `cache[startIndex:endIndex]` and report
`hasMore = endIndex < cache.length || hasMorePhotos`. -/
def getPhotosPage (st : Store) (urlOf : String → String) (horizonMs : Int)
    (innerFuel loopFuel pageSize pageIndex : Nat) (s : PagState) :
    Option (PhotoPage × PagState) :=
  match growLoop st urlOf horizonMs innerFuel ((pageIndex * pageSize) + pageSize)
      loopFuel s with
  | none => none
  | some s2 =>
    some ({ photos := (s2.photoCache.drop (pageIndex * pageSize)).take pageSize,
            continuationToken :=
              if decide ((pageIndex * pageSize) + pageSize < s2.photoCache.length)
                  || s2.hasMorePhotos then
                some (toString (pageIndex + 1))
              else none,
            hasMore :=
              decide ((pageIndex * pageSize) + pageSize < s2.photoCache.length)
                || s2.hasMorePhotos },
          s2)

/-! ## Photos page component (`photos.component.ts`) -/

/-- `nextPhoto` (photos.component.ts:238-246).  JS array indexing out of
bounds yields `undefined`; the selection type `Photo | null | undefined`
collapses to `Option Photo`.  `findIndex` compares `p.key ===
this.selectedPhoto?.key`; with no selection the right side is `undefined` and
the comparison is never true (index −1, guard fails). The guard
`index >= 0 && index < this.photos.length` is mirrored: a found index always
satisfies both. -/
def nextPhoto (photos : List Photo) (selectedPhoto : Option Photo) : Option Photo :=
  if photos.length ≠ 0 then
    match photos.findIdx? (fun p =>
        match selectedPhoto with
        | some sel => p.key == sel.key
        | none => false) with
    | some index =>
      if index < photos.length then photos[index + 1]? else selectedPhoto
    | none => selectedPhoto
  else selectedPhoto

/-! ## Supporting lemmas -/

theorem insertDesc_perm (p : Photo) (l : List Photo) : (insertDesc p l).Perm (p :: l) := by
  induction l with
  | nil => exact List.Perm.refl _
  | cons q qs ih =>
    unfold insertDesc
    split
    · exact ((ih.cons q).trans (List.Perm.swap p q qs))
    · exact List.Perm.refl _

theorem sortDesc_perm (l : List Photo) : (sortDesc l).Perm l := by
  induction l with
  | nil => exact List.Perm.refl _
  | cons p ps ih =>
    unfold sortDesc
    exact (insertDesc_perm p (sortDesc ps)).trans (ih.cons p)

theorem mem_sortDesc (p : Photo) (l : List Photo) : p ∈ sortDesc l ↔ p ∈ l :=
  (sortDesc_perm l).mem_iff

/-- Descending-by-timestamp order on adjacent elements. -/
def DescTs (a b : Photo) : Prop := b.timestamp ≤ a.timestamp

theorem mem_insertDesc (z p : Photo) (l : List Photo) :
    z ∈ insertDesc p l ↔ z = p ∨ z ∈ l := by
  rw [(insertDesc_perm p l).mem_iff]
  simp

theorem insertDesc_pairwise (p : Photo) (l : List Photo) (h : l.Pairwise DescTs) :
    (insertDesc p l).Pairwise DescTs := by
  induction l with
  | nil => simp [insertDesc, List.pairwise_cons]
  | cons y ys ih =>
    rw [List.pairwise_cons] at h
    obtain ⟨hy, hys⟩ := h
    unfold insertDesc
    split
    · rename_i hts
      rw [List.pairwise_cons]
      refine ⟨?_, ih hys⟩
      intro z hz
      rcases (mem_insertDesc z p ys).mp hz with rfl | hz2
      · exact le_of_lt hts
      · exact hy z hz2
    · rename_i hts
      rw [List.pairwise_cons]
      refine ⟨?_, ?_⟩
      · intro z hz
        rcases List.mem_cons.mp hz with rfl | hz2
        · exact not_lt.mp hts
        · exact le_trans (hy z hz2) (not_lt.mp hts)
      · rw [List.pairwise_cons]
        exact ⟨hy, hys⟩

theorem sortDesc_pairwise (l : List Photo) : (sortDesc l).Pairwise DescTs := by
  induction l with
  | nil => simp [sortDesc]
  | cons p ps ih => exact insertDesc_pairwise p (sortDesc ps) ih

theorem insertDesc_eq_cons (p : Photo) (l : List Photo)
    (h : ∀ y ∈ l, y.timestamp ≤ p.timestamp) : insertDesc p l = p :: l := by
  cases l with
  | nil => rfl
  | cons y ys =>
    unfold insertDesc
    rw [if_neg (not_lt.mpr (h y (by simp)))]

theorem insertDesc_cons (p x : Photo) (xs : List Photo) :
    insertDesc p (x :: xs)
      = if p.timestamp < x.timestamp then x :: insertDesc p xs else p :: x :: xs := rfl

theorem filter_insertDesc (q : Photo → Bool) (p : Photo) (l : List Photo)
    (h : l.Pairwise DescTs) :
    (insertDesc p l).filter q
      = if q p then insertDesc p (l.filter q) else l.filter q := by
  induction l with
  | nil =>
    cases hq : q p <;> simp [insertDesc, List.filter, hq]
  | cons x xs ih =>
    rw [List.pairwise_cons] at h
    obtain ⟨hx, hxs⟩ := h
    by_cases hts : p.timestamp < x.timestamp
    · rw [insertDesc_cons, if_pos hts, List.filter_cons, List.filter_cons]
      cases hqx : q x
      · simp only [Bool.false_eq_true, if_false]
        rw [ih hxs]
      · simp only [if_true]
        rw [ih hxs]
        cases hqp : q p
        · simp only [Bool.false_eq_true, if_false]
        · simp only [if_true]
          rw [insertDesc_cons, if_pos hts]
    · rw [insertDesc_cons, if_neg hts, List.filter_cons]
      cases hqp : q p
      · simp only [Bool.false_eq_true, if_false]
      · simp only [if_true]
        have hall : ∀ y ∈ List.filter q (x :: xs), y.timestamp ≤ p.timestamp := by
          intro y hy
          rcases List.mem_cons.mp (List.mem_of_mem_filter hy) with rfl | hy2
          · exact not_lt.mp hts
          · exact le_trans (hx y hy2) (not_lt.mp hts)
        rw [insertDesc_eq_cons p _ hall]

theorem filter_sortDesc (q : Photo → Bool) (l : List Photo) :
    (sortDesc l).filter q = sortDesc (l.filter q) := by
  induction l with
  | nil => rfl
  | cons p ps ih =>
    show (insertDesc p (sortDesc ps)).filter q = sortDesc (List.filter q (p :: ps))
    rw [filter_insertDesc q p (sortDesc ps) (sortDesc_pairwise ps), List.filter_cons]
    cases hq : q p
    · simp only [hq, Bool.false_eq_true, if_false, ih]
    · simp only [hq, if_true, ih]
      rfl

theorem dedupSeen_nodup_aux (l : List Photo) : ∀ seen : List String,
    ((dedupSeen seen l).map (fun p => p.key)).Nodup
      ∧ ∀ k ∈ (dedupSeen seen l).map (fun p => p.key), k ∉ seen := by
  induction l with
  | nil => intro seen; simp [dedupSeen]
  | cons p ps ih =>
    intro seen
    unfold dedupSeen
    split
    · exact ih seen
    · rename_i hnot
      obtain ⟨ihnodup, ihseen⟩ := ih (p.key :: seen)
      simp only [List.map_cons, List.nodup_cons]
      refine ⟨⟨?_, ihnodup⟩, ?_⟩
      · intro hmem
        exact ihseen p.key hmem (by simp)
      · intro k hk
        rcases List.mem_cons.mp hk with rfl | hk2
        · exact hnot
        · intro hks
          exact ihseen k hk2 (by simp [hks])

/-- The deduplication pass leaves pairwise-distinct keys, whatever the input. -/
theorem dedupSeen_nodup (l : List Photo) :
    ((dedupSeen [] l).map (fun p => p.key)).Nodup :=
  (dedupSeen_nodup_aux l []).1

/-! Lemmas about the listing loop.  `listObjects` ignores continuation
tokens, so each iteration of `fetchLoop` receives the identical first page:
if that page is truncated the loop never exits; if not, the loop exits after
one round with exactly that page. -/

theorem fetchLoop_diverge (st : Store) (pfx : String)
    (hbig : 1000 < (pfxObjects st (fullPfxOf st pfx)).length) :
    ∀ (fuel : Nat) (tok : Option Nat) (acc : List S3Obj),
      fetchLoop st pfx tok acc fuel = none := by
  intro fuel
  induction fuel with
  | zero =>
    intro tok acc
    unfold fetchLoop listObjects listObjectsV2
    simp [hbig]
  | succ fuel ih =>
    intro tok acc
    unfold fetchLoop listObjects listObjectsV2
    simp [hbig]
    exact ih _ _

theorem fetchLoop_complete (st : Store) (pfx : String)
    (hsmall : (pfxObjects st (fullPfxOf st pfx)).length ≤ 1000)
    (fuel : Nat) (tok : Option Nat) (acc : List S3Obj) :
    fetchLoop st pfx tok acc fuel = some (acc ++ pfxObjects st (fullPfxOf st pfx)) := by
  have hns : ¬ 1000 < (pfxObjects st (fullPfxOf st pfx)).length := Nat.not_lt.mpr hsmall
  unfold fetchLoop listObjects listObjectsV2
  simp [hns, List.take_of_length_le hsmall]

theorem fetchLoop_some (st : Store) (pfx : String) (fuel : Nat) (l : List S3Obj)
    (h : fetchLoop st pfx none [] fuel = some l) :
    l = pfxObjects st (fullPfxOf st pfx)
      ∧ (pfxObjects st (fullPfxOf st pfx)).length ≤ 1000 := by
  by_cases hbig : 1000 < (pfxObjects st (fullPfxOf st pfx)).length
  · rw [fetchLoop_diverge st pfx hbig fuel none []] at h
    exact absurd h (by simp)
  · have hsmall := Nat.not_lt.mp hbig
    rw [fetchLoop_complete st pfx hsmall fuel none []] at h
    simp only [List.nil_append, Option.some.injEq] at h
    exact ⟨h.symm, hsmall⟩

theorem collectAll_some (st : Store) (fuel : Nat) (pfxs : List String) (L : List S3Obj)
    (h : collectAll st fuel pfxs = some L) :
    L = pfxs.flatMap (fun p => (listObjects st p 1000).Contents) := by
  induction pfxs generalizing L with
  | nil =>
    unfold collectAll at h
    simp only [Option.some.injEq] at h
    simp [h.symm]
  | cons pfx rest ih =>
    unfold collectAll at h
    cases hf : fetchLoop st pfx none [] fuel with
    | none => rw [hf] at h; exact absurd h (by simp)
    | some objs =>
      rw [hf] at h
      cases hc : collectAll st fuel rest with
      | none => rw [hc] at h; exact absurd h (by simp)
      | some objs2 =>
        rw [hc] at h
        simp only [Option.some.injEq] at h
        obtain ⟨hobjs, hle⟩ := fetchLoop_some st pfx fuel objs hf
        have hcontents : (listObjects st pfx 1000).Contents
            = pfxObjects st (fullPfxOf st pfx) := by
          unfold listObjects listObjectsV2
          simp only [Option.getD_none, List.drop_zero]
          exact List.take_of_length_le hle
        rw [List.flatMap_cons, hcontents, ← hobjs, ← ih objs2 hc, h]

theorem collectAll_none_of_big (st : Store) (fuel : Nat) (pfxs : List String)
    (pfx : String) (hmem : pfx ∈ pfxs)
    (hbig : 1000 < (pfxObjects st (fullPfxOf st pfx)).length) :
    collectAll st fuel pfxs = none := by
  induction pfxs with
  | nil => cases hmem
  | cons hd rest ih =>
    unfold collectAll
    rcases List.mem_cons.mp hmem with heq | hmem2
    · rw [fetchLoop_diverge st hd (heq ▸ hbig) fuel none []]
    · by_cases hhd : 1000 < (pfxObjects st (fullPfxOf st hd)).length
      · rw [fetchLoop_diverge st hd hhd fuel none []]
      · rw [fetchLoop_complete st hd (Nat.not_lt.mp hhd) fuel none [], ih hmem2]

/-! Lemmas about the prefix-generation day loop. -/

theorem mem_dayLoop_of (endMs : Int) (count : Nat) : ∀ (current : Int) (i : Nat),
    i < count → current + 86400000 * i ≤ endMs →
    current + 86400000 * i ∈ dayLoop endMs count current := by
  induction count with
  | zero => intro current i hi _; omega
  | succ count ih =>
    intro current i hi hle
    unfold dayLoop
    rw [if_pos (by omega : current ≤ endMs)]
    cases i with
    | zero => simp
    | succ i =>
      simp only [List.mem_cons]
      right
      have := ih (current + 86400000) i (by omega) (by omega)
      have heq : current + 86400000 + 86400000 * i = current + 86400000 * (i + 1) := by ring
      rw [heq] at this
      exact this

theorem mem_dayLoop (endMs : Int) (count : Nat) : ∀ (current x : Int),
    x ∈ dayLoop endMs count current →
    current ≤ x ∧ x ≤ endMs ∧ ∃ i : Nat, x = current + 86400000 * i := by
  induction count with
  | zero => intro current x h; cases h
  | succ count ih =>
    intro current x h
    unfold dayLoop at h
    by_cases hle : current ≤ endMs
    · rw [if_pos hle] at h
      rcases List.mem_cons.mp h with rfl | h2
      · exact ⟨le_refl _, hle, 0, by ring⟩
      · obtain ⟨h1, h2, i, hi⟩ := ih (current + 86400000) x h2
        exact ⟨by omega, h2, i + 1, by omega⟩
    · rw [if_neg hle] at h
      cases h

/-! ## Claim theorems -/

/-- C7: for `startDate ≤ endDate`, `getDatePrefixes` returns exactly the
bucket of every UTC calendar day from one day before `startDate` through one
day after `endDate` inclusive (so in particular the buckets of
`startDate − 1 day` and `endDate + 1 day` are present), and for
`startDate = endDate` it returns exactly 3 buckets. -/
theorem getDatePrefixes_covers (startDate endDate : Int) (h : startDate ≤ endDate) :
    (∀ k : Int, startDate / 86400000 - 1 ≤ k → k ≤ endDate / 86400000 + 1 →
        dayPfx k ∈ getDatePrefixes startDate endDate)
      ∧ (∀ s ∈ getDatePrefixes startDate endDate,
          ∃ k : Int, startDate / 86400000 - 1 ≤ k ∧ k ≤ endDate / 86400000 + 1
            ∧ s = dayPfx k)
      ∧ (startDate = endDate → (getDatePrefixes startDate endDate).length = 3) := by
  refine ⟨?_, ?_, ?_⟩
  · intro k hk1 hk2
    unfold getDatePrefixes
    obtain ⟨i, hi⟩ : ∃ i : Nat, k = (startDate / 86400000 - 1) + i :=
      ⟨(k - (startDate / 86400000 - 1)).toNat, by omega⟩
    have hmem := mem_dayLoop_of ((endDate / 86400000 + 1) * 86400000)
      ((endDate / 86400000 + 1) - (startDate / 86400000 - 1) + 1).toNat
      ((startDate / 86400000 - 1) * 86400000) i (by omega) (by
        have : (startDate / 86400000 - 1) + i ≤ endDate / 86400000 + 1 := by omega
        omega)
    refine List.mem_map.mpr
      ⟨(startDate / 86400000 - 1) * 86400000 + 86400000 * i, hmem, ?_⟩
    congr 1
    omega
  · intro s hs
    unfold getDatePrefixes at hs
    obtain ⟨t, ht, hst⟩ := List.mem_map.mp hs
    obtain ⟨h1, h2, i, hi⟩ := mem_dayLoop _ _ _ t ht
    exact ⟨t / 86400000, by omega, by omega, hst.symm⟩
  · intro heq
    subst heq
    unfold getDatePrefixes
    rw [List.length_map]
    have hcount : ((startDate / 86400000 + 1) - (startDate / 86400000 - 1) + 1).toNat = 3 := by
      omega
    rw [hcount]
    unfold dayLoop
    rw [if_pos (by omega)]
    unfold dayLoop
    rw [if_pos (by omega)]
    unfold dayLoop
    rw [if_pos (by omega)]
    rfl

theorem getDatePrefixes_covers_witness :
    (getDatePrefixes (utcMsOfFields 2025 6 1 12 0 0) (utcMsOfFields 2025 6 1 12 0 0)
        = ["cat_20250531_", "cat_20250601_", "cat_20250602_"])
      ∧ (getDatePrefixes (utcMsOfFields 2025 6 1 12 0 0)
          (utcMsOfFields 2025 6 1 12 0 0)).length = 3
      ∧ dayPfx (utcMsOfFields 2025 6 1 12 0 0 / 86400000 - 1)
          ∈ getDatePrefixes (utcMsOfFields 2025 6 1 12 0 0)
            (utcMsOfFields 2025 6 1 12 0 0) :=
  ⟨by decide,
   (getDatePrefixes_covers (utcMsOfFields 2025 6 1 12 0 0)
      (utcMsOfFields 2025 6 1 12 0 0) le_rfl).2.2 rfl,
   (getDatePrefixes_covers (utcMsOfFields 2025 6 1 12 0 0)
      (utcMsOfFields 2025 6 1 12 0 0) le_rfl).1 _ le_rfl (by omega)⟩

/-- C2 (the code violates the claim): the Range Fetcher's listing is NOT
exhaustive.  `S3Service.listObjects` takes no continuation-token parameter
and never sets `ContinuationToken` on its command, so the token that
`getPhotos` passes as a third argument is silently dropped and every
iteration of the paging loop receives the identical first page: as soon as a
scanned prefix holds more than 1000 objects (one truncated page), the loop
never advances and `getPhotos` never completes — for every fuel bound it
fails to produce the union of the list pages. -/
theorem getPhotos_never_completes_on_truncated_bucket (st : Store)
    (urlOf : String → String) (startDate endDate : Int) (fuel : Nat) (pfx : String)
    (hmem : pfx ∈ getDatePrefixes startDate endDate)
    (hbig : 1000 < (pfxObjects st (fullPfxOf st pfx)).length) :
    getPhotos st urlOf startDate endDate fuel = none := by
  unfold getPhotos
  rw [collectAll_none_of_big st fuel _ pfx hmem hbig]

theorem getPhotos_never_completes_on_truncated_bucket_witness :
    ("cat_20250601_" : String)
        ∈ getDatePrefixes (utcMsOfFields 2025 6 1 12 0 0) (utcMsOfFields 2025 6 1 12 0 0)
      ∧ 1000 < (pfxObjects
          ⟨"cat", List.replicate 1001 ⟨"cat/cat_20250601_120000.jpg", none⟩⟩
          (fullPfxOf
            ⟨"cat", List.replicate 1001 ⟨"cat/cat_20250601_120000.jpg", none⟩⟩
            "cat_20250601_")).length
      ∧ getPhotos ⟨"cat", List.replicate 1001 ⟨"cat/cat_20250601_120000.jpg", none⟩⟩
          (fun _ => "u") (utcMsOfFields 2025 6 1 12 0 0) (utcMsOfFields 2025 6 1 12 0 0)
          5 = none := by
  have hbig : 1000 < (pfxObjects
      ⟨"cat", List.replicate 1001 ⟨"cat/cat_20250601_120000.jpg", none⟩⟩
      (fullPfxOf
        ⟨"cat", List.replicate 1001 ⟨"cat/cat_20250601_120000.jpg", none⟩⟩
        "cat_20250601_")).length := by
    have hrepl : pfxObjects
        ⟨"cat", List.replicate 1001 ⟨"cat/cat_20250601_120000.jpg", none⟩⟩
        (fullPfxOf
          ⟨"cat", List.replicate 1001 ⟨"cat/cat_20250601_120000.jpg", none⟩⟩
          "cat_20250601_")
        = List.replicate 1001 ⟨"cat/cat_20250601_120000.jpg", none⟩ := by
      unfold pfxObjects fullPfxOf
      rw [List.filter_replicate, if_pos (by decide)]
    rw [hrepl, List.length_replicate]
    omega
  exact ⟨by decide, hbig,
    getPhotos_never_completes_on_truncated_bucket _ _ _ _ 5 "cat_20250601_"
      (by decide) hbig⟩

/-- C6: every photo returned by `getPhotos(start, end)` has
`start ≤ timestamp ≤ end` (inclusive on both ends): entries gathered from the
±1-day bucket slack whose timestamps fall outside the requested window are
discarded by the exact-window filter and never returned. -/
theorem getPhotos_within_range (st : Store) (urlOf : String → String)
    (startDate endDate : Int) (fuel : Nat) (ps : List Photo)
    (h : getPhotos st urlOf startDate endDate fuel = some ps) :
    ∀ p ∈ ps, startDate ≤ p.timestamp ∧ p.timestamp ≤ endDate := by
  intro p hp
  unfold getPhotos at h
  cases hc : collectAll st fuel (getDatePrefixes startDate endDate) with
  | none => rw [hc] at h; exact absurd h (by simp)
  | some L =>
    rw [hc] at h
    simp only [Option.some.injEq] at h
    subst h
    rw [mem_sortDesc] at hp
    obtain ⟨o, ho, rfl⟩ := List.mem_map.mp hp
    have hof := (List.mem_filter.mp ho).2
    unfold rangeFilter at hof
    unfold mkPhoto
    cases hparse : parseFileNameUTC (basenameOf o.Key) with
    | none => rw [hparse] at hof; cases hof
    | some t =>
      rw [hparse] at hof
      simp only [Bool.and_eq_true, decide_eq_true_eq] at hof
      simp only [hparse, Option.getD_some]
      exact hof

theorem getPhotos_within_range_witness :
    utcMsOfFields 2025 6 1 0 0 0 ≤ utcMsOfFields 2025 6 1 12 0 0
      ∧ utcMsOfFields 2025 6 1 12 0 0 ≤ utcMsOfFields 2025 6 1 23 0 0 :=
  getPhotos_within_range ⟨"cat", [⟨"cat/cat_20250601_120000.jpg", none⟩]⟩
    (fun _ => "u") (utcMsOfFields 2025 6 1 0 0 0) (utcMsOfFields 2025 6 1 23 0 0) 0
    [⟨"cat/cat_20250601_120000.jpg", "cat_20250601_120000.jpg",
      utcMsOfFields 2025 6 1 12 0 0, "u", none⟩]
    (by decide)
    ⟨"cat/cat_20250601_120000.jpg", "cat_20250601_120000.jpg",
      utcMsOfFields 2025 6 1 12 0 0, "u", none⟩
    (by decide)

/-- C3: whenever `fetchRange(since, now)` (i.e. `getPhotos`) completes with
result `ps`, the incremental fetch `getNewPhotosSince(since)` (with the same
`now`) returns exactly `ps` with the boundary photos at
`timestamp == since` removed, in the same newest-first order; and —
unconditionally — it never returns a photo with timestamp `≤ since`. -/
theorem getNewPhotosSince_eq_range_minus_boundary (st : Store)
    (urlOf : String → String) (sinceTs nowTs : Int) (fuel : Nat) (ps : List Photo)
    (h : getPhotos st urlOf sinceTs nowTs fuel = some ps) :
    getNewPhotosSince st urlOf sinceTs nowTs
        = ps.filter (fun p => p.timestamp != sinceTs)
      ∧ ∀ p ∈ getNewPhotosSince st urlOf sinceTs nowTs, sinceTs < p.timestamp := by
  constructor
  · unfold getPhotos at h
    cases hc : collectAll st fuel (getDatePrefixes sinceTs nowTs) with
    | none => rw [hc] at h; exact absurd h (by simp)
    | some L =>
      rw [hc] at h
      simp only [Option.some.injEq] at h
      subst h
      have hL := collectAll_some st fuel _ L hc
      unfold getNewPhotosSince listObjectsWithPrefixes
      rw [List.flatMap_map, ← hL]
      rw [filter_sortDesc, List.filter_map, List.filter_filter]
      congr 1
      congr 1
      apply List.filter_congr
      intro o _
      unfold newFilter rangeFilter Function.comp mkPhoto
      cases hparse : parseFileNameUTC (basenameOf o.Key) with
      | none => simp
      | some t =>
        simp only [Option.getD_some]
        rw [Bool.eq_iff_iff]
        simp only [Bool.and_eq_true, decide_eq_true_eq, bne_iff_ne, ne_eq]
        omega
  · intro p hp
    unfold getNewPhotosSince at hp
    rw [mem_sortDesc] at hp
    obtain ⟨o, ho, rfl⟩ := List.mem_map.mp hp
    have hof := (List.mem_filter.mp ho).2
    unfold newFilter at hof
    unfold mkPhoto
    cases hparse : parseFileNameUTC (basenameOf o.Key) with
    | none => rw [hparse] at hof; cases hof
    | some t =>
      rw [hparse] at hof
      simp only [Bool.and_eq_true, decide_eq_true_eq] at hof
      simp only [hparse, Option.getD_some]
      exact hof.1

theorem getNewPhotosSince_eq_range_minus_boundary_witness :
    getPhotos ⟨"cat", [⟨"cat/cat_20251030_031000.jpg", none⟩,
        ⟨"cat/cat_20251030_032000.jpg", none⟩, ⟨"cat/cat_20251030_033000.jpg", none⟩]⟩
      (fun _ => "u") (utcMsOfFields 2025 10 30 3 20 0) (utcMsOfFields 2025 10 30 4 0 0) 0
      = some [⟨"cat/cat_20251030_033000.jpg", "cat_20251030_033000.jpg",
          utcMsOfFields 2025 10 30 3 30 0, "u", none⟩,
        ⟨"cat/cat_20251030_032000.jpg", "cat_20251030_032000.jpg",
          utcMsOfFields 2025 10 30 3 20 0, "u", none⟩]
      ∧ getNewPhotosSince ⟨"cat", [⟨"cat/cat_20251030_031000.jpg", none⟩,
            ⟨"cat/cat_20251030_032000.jpg", none⟩, ⟨"cat/cat_20251030_033000.jpg", none⟩]⟩
          (fun _ => "u") (utcMsOfFields 2025 10 30 3 20 0) (utcMsOfFields 2025 10 30 4 0 0)
          = ([⟨"cat/cat_20251030_033000.jpg", "cat_20251030_033000.jpg",
              utcMsOfFields 2025 10 30 3 30 0, "u", none⟩,
            ⟨"cat/cat_20251030_032000.jpg", "cat_20251030_032000.jpg",
              utcMsOfFields 2025 10 30 3 20 0, "u", none⟩] : List Photo).filter
            (fun p => p.timestamp != utcMsOfFields 2025 10 30 3 20 0) :=
  ⟨by decide,
   (getNewPhotosSince_eq_range_minus_boundary
      ⟨"cat", [⟨"cat/cat_20251030_031000.jpg", none⟩,
        ⟨"cat/cat_20251030_032000.jpg", none⟩, ⟨"cat/cat_20251030_033000.jpg", none⟩]⟩
      (fun _ => "u") (utcMsOfFields 2025 10 30 3 20 0) (utcMsOfFields 2025 10 30 4 0 0) 0
      [⟨"cat/cat_20251030_033000.jpg", "cat_20251030_033000.jpg",
          utcMsOfFields 2025 10 30 3 30 0, "u", none⟩,
        ⟨"cat/cat_20251030_032000.jpg", "cat_20251030_032000.jpg",
          utcMsOfFields 2025 10 30 3 20 0, "u", none⟩]
      (by decide)).1⟩

/-- C4: whenever `getPhotosPage(pageSize, pageIndex)` completes, the returned
photos are exactly the post-growth cache slice
`cache[pageIndex*pageSize : (pageIndex+1)*pageSize]`, and `hasMore` is true
iff `(pageIndex+1)*pageSize < cache.length` or the paginator is not
exhausted (`hasMorePhotos` still set). -/
theorem getPhotosPage_slice_hasMore (st : Store) (urlOf : String → String)
    (horizonMs : Int) (innerFuel loopFuel pageSize pageIndex : Nat) (s : PagState)
    (page : PhotoPage) (s2 : PagState)
    (h : getPhotosPage st urlOf horizonMs innerFuel loopFuel pageSize pageIndex s
        = some (page, s2)) :
    page.photos = (s2.photoCache.drop (pageIndex * pageSize)).take pageSize
      ∧ (page.hasMore = true
          ↔ ((pageIndex + 1) * pageSize < s2.photoCache.length
              ∨ s2.hasMorePhotos = true)) := by
  unfold getPhotosPage at h
  cases hg : growLoop st urlOf horizonMs innerFuel (pageIndex * pageSize + pageSize)
      loopFuel s with
  | none => rw [hg] at h; exact absurd h (by simp)
  | some s3 =>
    rw [hg] at h
    simp only [Option.some.injEq, Prod.mk.injEq] at h
    obtain ⟨hpage, hs⟩ := h
    subst hs
    rw [← hpage]
    refine ⟨rfl, ?_⟩
    simp only [Bool.or_eq_true, decide_eq_true_eq]
    rw [Nat.succ_mul]

theorem getPhotosPage_slice_hasMore_witness :
    getPhotosPage ⟨"cat", []⟩ (fun _ => "u") 0 0 3 1 0 (initPagState 0)
        = some (⟨[], none, false⟩,
            ⟨[], initCurrentDate 0 - 86400000, false, false⟩)
      ∧ ((⟨[], none, false⟩ : PhotoPage).photos
          = (((⟨[], initCurrentDate 0 - 86400000, false, false⟩ : PagState).photoCache.drop
              (0 * 1)).take 1)
        ∧ ((⟨[], none, false⟩ : PhotoPage).hasMore = true
            ↔ ((0 + 1) * 1
                  < (⟨[], initCurrentDate 0 - 86400000, false, false⟩ :
                      PagState).photoCache.length
                ∨ (⟨[], initCurrentDate 0 - 86400000, false, false⟩ :
                    PagState).hasMorePhotos = true))) :=
  ⟨by decide,
   getPhotosPage_slice_hasMore ⟨"cat", []⟩ (fun _ => "u") 0 0 3 1 0 (initPagState 0)
     ⟨[], none, false⟩ ⟨[], initCurrentDate 0 - 86400000, false, false⟩ (by decide)⟩

/-- C5: a `loadMoreDaysFromS3` step that scans a day bucket holding zero
matching photos does not by itself clear `hasMorePhotos`: as long as the
decremented cursor has not passed the 2-year horizon, the flag stays set and
the cursor moves exactly one day further back. -/
theorem loadMore_quiet_day_keeps_going (st : Store) (urlOf : String → String)
    (horizonMs : Int) (fuel : Nat) (s s2 : PagState)
    (hrun : loadMoreDaysFromS3 st urlOf horizonMs fuel s = some s2)
    (hactive : s.hasMorePhotos = true)
    (hnl : s.isLoadingMore = false)
    (hzero : (pfxObjects st (fullPfxOf st (cursorPfx s.currentDate))).filter
        (fun o => patternTest (basenameOf o.Key)) = [])
    (hhor : horizonMs ≤ s.currentDate - 86400000) :
    s2.hasMorePhotos = true ∧ s2.currentDate = s.currentDate - 86400000 := by
  unfold loadMoreDaysFromS3 at hrun
  rw [hactive, hnl] at hrun
  simp only [Bool.not_true, Bool.or_false, Bool.false_eq_true, if_false] at hrun
  cases hf : fetchLoop st (cursorPfx s.currentDate) none [] fuel with
  | none => rw [hf] at hrun; exact absurd hrun (by simp)
  | some dayObjects =>
    rw [hf] at hrun
    simp only [Option.some.injEq] at hrun
    subst hrun
    refine ⟨?_, rfl⟩
    simp only
    rw [if_neg (by omega)]

theorem loadMore_quiet_day_keeps_going_witness :
    loadMoreDaysFromS3 ⟨"cat", []⟩ (fun _ => "u") (-500000000000) 0 (initPagState 0)
        = some ⟨[], initCurrentDate 0 - 86400000, true, false⟩
      ∧ ((⟨[], initCurrentDate 0 - 86400000, true, false⟩ : PagState).hasMorePhotos = true
        ∧ (⟨[], initCurrentDate 0 - 86400000, true, false⟩ : PagState).currentDate
            = (initPagState 0).currentDate - 86400000) :=
  ⟨by decide,
   loadMore_quiet_day_keeps_going ⟨"cat", []⟩ (fun _ => "u") (-500000000000) 0
     (initPagState 0) ⟨[], initCurrentDate 0 - 86400000, true, false⟩
     (by decide) (by decide) (by decide) (by decide) (by decide)⟩

/-- A sequence of `loadMoreDaysFromS3` invocations, each against its own
store snapshot / horizon / fuel (consecutive invocations may therefore see
overlapping data, as after a re-list). -/
def runGrows (urlOf : String → String) : List (Store × Int × Nat) → PagState → Option PagState
  | [], s => some s
  | (st, horizonMs, fuel) :: rest, s =>
    match loadMoreDaysFromS3 st urlOf horizonMs fuel s with
    | none => none
    | some s2 => runGrows urlOf rest s2

theorem loadMore_preserves_key_nodup (st : Store) (urlOf : String → String)
    (horizonMs : Int) (fuel : Nat) (s s2 : PagState)
    (hnodup : (s.photoCache.map (fun p => p.key)).Nodup)
    (hrun : loadMoreDaysFromS3 st urlOf horizonMs fuel s = some s2) :
    (s2.photoCache.map (fun p => p.key)).Nodup := by
  unfold loadMoreDaysFromS3 at hrun
  by_cases hguard : (s.isLoadingMore || !s.hasMorePhotos) = true
  · rw [if_pos hguard] at hrun
    simp only [Option.some.injEq] at hrun
    subst hrun
    exact hnodup
  · rw [if_neg hguard] at hrun
    cases hf : fetchLoop st (cursorPfx s.currentDate) none [] fuel with
    | none => rw [hf] at hrun; exact absurd hrun (by simp)
    | some dayObjects =>
      rw [hf] at hrun
      simp only [Option.some.injEq] at hrun
      subst hrun
      simp only
      have hperm := (sortDesc_perm (dedupSeen []
        (s.photoCache ++
          (dayObjects.filter (fun o => patternTest (basenameOf o.Key))).map
            (mkPhoto urlOf)))).map (fun p => p.key)
      rw [hperm.nodup_iff]
      exact dedupSeen_nodup _

/-- C9: the pagination cache is deduplicated by key — after any sequence of
`loadMoreDaysFromS3` invocations starting from the reset state (including
invocations whose listings return overlapping data), every key occurs at
most once in the cache. -/
theorem runGrows_cache_key_nodup (urlOf : String → String) (nowMs : Int)
    (steps : List (Store × Int × Nat)) (s2 : PagState)
    (h : runGrows urlOf steps (initPagState nowMs) = some s2) :
    (s2.photoCache.map (fun p => p.key)).Nodup := by
  have aux : ∀ (steps : List (Store × Int × Nat)) (s s2 : PagState),
      (s.photoCache.map (fun p => p.key)).Nodup →
      runGrows urlOf steps s = some s2 →
      (s2.photoCache.map (fun p => p.key)).Nodup := by
    intro steps
    induction steps with
    | nil =>
      intro s s2 hnodup hrun
      unfold runGrows at hrun
      simp only [Option.some.injEq] at hrun
      subst hrun
      exact hnodup
    | cons step rest ih =>
      intro s s2 hnodup hrun
      obtain ⟨st, horizonMs, fuel⟩ := step
      unfold runGrows at hrun
      cases hl : loadMoreDaysFromS3 st urlOf horizonMs fuel s with
      | none => rw [hl] at hrun; exact absurd hrun (by simp)
      | some s3 =>
        rw [hl] at hrun
        exact ih s3 s2 (loadMore_preserves_key_nodup st urlOf horizonMs fuel s s3 hnodup hl) hrun
  exact aux steps (initPagState nowMs) s2 (by simp [initPagState]) h

theorem runGrows_cache_key_nodup_witness :
    runGrows (fun _ => "u")
        [(⟨"cat", [⟨"cat/cat_20250601_120000.jpg", none⟩,
            ⟨"cat/cat_20250601_120000.jpg", none⟩]⟩,
          utcMsOfFields 2000 1 1 0 0 0, 0)]
        (initPagState (utcMsOfFields 2025 6 1 12 0 0))
        = some ⟨[⟨"cat/cat_20250601_120000.jpg", "cat_20250601_120000.jpg",
            utcMsOfFields 2025 6 1 12 0 0, "u", none⟩],
          initCurrentDate (utcMsOfFields 2025 6 1 12 0 0) - 86400000, true, false⟩
      ∧ ((⟨[⟨"cat/cat_20250601_120000.jpg", "cat_20250601_120000.jpg",
            utcMsOfFields 2025 6 1 12 0 0, "u", none⟩],
          initCurrentDate (utcMsOfFields 2025 6 1 12 0 0) - 86400000, true,
          false⟩ : PagState).photoCache.map (fun p => p.key)).Nodup :=
  ⟨by decide,
   runGrows_cache_key_nodup (fun _ => "u") (utcMsOfFields 2025 6 1 12 0 0)
     [(⟨"cat", [⟨"cat/cat_20250601_120000.jpg", none⟩,
         ⟨"cat/cat_20250601_120000.jpg", none⟩]⟩,
       utcMsOfFields 2000 1 1 0 0 0, 0)]
     ⟨[⟨"cat/cat_20250601_120000.jpg", "cat_20250601_120000.jpg",
         utcMsOfFields 2025 6 1 12 0 0, "u", none⟩],
       initCurrentDate (utcMsOfFields 2025 6 1 12 0 0) - 86400000, true, false⟩
     (by decide)⟩

theorem findIdx?_append_singleton {α : Type} (pred : α → Bool) (l : List α) (p : α)
    (hl : ∀ q ∈ l, pred q = false) (hp : pred p = true) :
    ∀ i : Nat, List.findIdx? pred (l ++ [p]) i = some (i + l.length) := by
  induction l with
  | nil =>
    intro i
    simp [List.findIdx?_cons, hp]
  | cons a rest ih =>
    intro i
    rw [List.cons_append, List.findIdx?_cons, if_neg (by simp [hl a (by simp)])]
    rw [ih (fun q hq => hl q (by simp [hq])) (i + 1)]
    simp only [List.length_cons, Option.some.injEq]
    omega

/-- C10: when the selected photo is the last element of a non-empty photo
list (and its key does not occur earlier in the list), `nextPhoto` assigns
`photos[photos.length]` — i.e. `undefined` — to the selection rather than
keeping the last photo selected: the guard `index >= 0 && index <
photos.length` accepts `index + 1 == photos.length`. -/
theorem nextPhoto_last_selects_undefined (photos l : List Photo) (p : Photo)
    (hphotos : photos = l ++ [p])
    (hfresh : ∀ q ∈ l, q.key ≠ p.key) :
    nextPhoto photos (some p) = none := by
  subst hphotos
  unfold nextPhoto
  rw [if_pos (by simp)]
  have hfind : List.findIdx? (fun q =>
      match some p with
      | some sel => q.key == sel.key
      | none => false) (l ++ [p]) 0 = some (0 + l.length) := by
    apply findIdx?_append_singleton
    · intro q hq
      simp only [beq_eq_false_iff_ne, ne_eq]
      exact hfresh q hq
    · simp
  rw [hfind]
  show (if 0 + l.length < (l ++ [p]).length then (l ++ [p])[0 + l.length + 1]?
    else some p) = none
  rw [if_pos (by simp)]
  apply List.getElem?_eq_none
  simp

theorem nextPhoto_last_selects_undefined_witness :
    nextPhoto
        [⟨"cat/cat_20250601_100000.jpg", "cat_20250601_100000.jpg",
          utcMsOfFields 2025 6 1 10 0 0, "u", none⟩,
         ⟨"cat/cat_20250601_120000.jpg", "cat_20250601_120000.jpg",
          utcMsOfFields 2025 6 1 12 0 0, "u", none⟩]
        (some ⟨"cat/cat_20250601_120000.jpg", "cat_20250601_120000.jpg",
          utcMsOfFields 2025 6 1 12 0 0, "u", none⟩) = none :=
  nextPhoto_last_selects_undefined _
    [⟨"cat/cat_20250601_100000.jpg", "cat_20250601_100000.jpg",
      utcMsOfFields 2025 6 1 10 0 0, "u", none⟩]
    ⟨"cat/cat_20250601_120000.jpg", "cat_20250601_120000.jpg",
      utcMsOfFields 2025 6 1 12 0 0, "u", none⟩
    rfl (by decide)

/-- C1 (the code violates the claim for the first `PhotoService` variant):
`parseFileName` at photo.service.ts:25-40 constructs
`new Date(year, month, day, hour, minute, second)` — the LOCAL-time
constructor — so its result shifts with the viewer's UTC offset: for the
valid filename `cat_20251030_032811.jpg` a viewer at UTC+01:00 obtains an
instant one hour earlier than a viewer at UTC+00:00, whereas the claim (and
the second variant, photo.service.ts:155-171, which correctly uses
`Date.UTC`) demands the zone-independent UTC instant 2025-10-30T03:28:11Z. -/
theorem parseFileName_variant1_zone_dependent :
    parseFileNameLocalZone 60 "cat_20251030_032811.jpg"
        ≠ parseFileNameLocalZone 0 "cat_20251030_032811.jpg"
      ∧ parseFileNameLocalZone 0 "cat_20251030_032811.jpg"
          = parseFileNameUTC "cat_20251030_032811.jpg"
      ∧ parseFileNameUTC "cat_20251030_032811.jpg"
          = some (utcMsOfFields 2025 10 30 3 28 11) := by
  refine ⟨by decide, by decide, by decide⟩

/-! ## C8: the `parseTimestamp` round-trip -/

/-- A well-formed photo basename `cat_<d8>_<d6>.jpg` as a character list. -/
def photoNameChars (d8 d6 : List Char) : List Char :=
  ['c', 'a', 't', '_'] ++ d8 ++ ['_'] ++ d6 ++ ['.', 'j', 'p', 'g']

/-- The fourteen digits `YYYYMMDDHHMMSS` of an instant, read back through the
`getUTC*` accessors — the digit part of reconstructing the filename from the
parsed UTC instant. -/
def fourteenDigits (t : Int) : List Char :=
  padDigits 4 (utcFieldsOfMs t).1 ++ padDigits 2 (utcFieldsOfMs t).2.1
    ++ padDigits 2 (utcFieldsOfMs t).2.2.1 ++ padDigits 2 (utcFieldsOfMs t).2.2.2.1
    ++ padDigits 2 (utcFieldsOfMs t).2.2.2.2.1
    ++ padDigits 2 (utcFieldsOfMs t).2.2.2.2.2

theorem stripLit_append (lit rest : List Char) : stripLit lit (lit ++ rest) = some rest := by
  induction lit with
  | nil => rfl
  | cons c cs ih =>
    show stripLit (c :: cs) (c :: (cs ++ rest)) = some rest
    unfold stripLit
    rw [if_pos rfl]
    exact ih

theorem takeDigits_append (ds : List Char) : ∀ (rest : List Char) (n : Nat),
    ds.length = n → (∀ c ∈ ds, c.isDigit = true) →
    takeDigits n (ds ++ rest) = some (ds, rest) := by
  induction ds with
  | nil =>
    intro rest n hn _
    subst hn
    rfl
  | cons c cs ih =>
    intro rest n hn hd
    subst hn
    show takeDigits (cs.length + 1) (c :: (cs ++ rest)) = some (c :: cs, rest)
    unfold takeDigits
    rw [if_pos (hd c (by simp))]
    rw [ih rest cs.length rfl (fun x hx => hd x (by simp [hx]))]
    rfl

theorem matchHere_name (d8 d6 : List Char) (h8 : d8.length = 8) (h6 : d6.length = 6)
    (hd8 : ∀ c ∈ d8, c.isDigit = true) (hd6 : ∀ c ∈ d6, c.isDigit = true) :
    matchHere (photoNameChars d8 d6) = some (d8, d6) := by
  have e1 : photoNameChars d8 d6
      = ['c', 'a', 't', '_'] ++ (d8 ++ ('_' :: (d6 ++ ['.', 'j', 'p', 'g']))) := by
    unfold photoNameChars
    simp [List.append_assoc]
  have e2 : ('_' :: (d6 ++ ['.', 'j', 'p', 'g']))
      = ['_'] ++ (d6 ++ ['.', 'j', 'p', 'g']) := rfl
  have e3 : stripLit ['.', 'j', 'p', 'g'] ['.', 'j', 'p', 'g'] = some ([] : List Char) := rfl
  unfold matchHere
  rw [e1, stripLit_append, Option.some_bind,
    takeDigits_append d8 ('_' :: (d6 ++ ['.', 'j', 'p', 'g'])) 8 h8 hd8,
    Option.some_bind]
  simp only
  rw [e2, stripLit_append, Option.some_bind,
    takeDigits_append d6 ['.', 'j', 'p', 'g'] 6 h6 hd6, Option.some_bind]
  simp only
  rw [e3, Option.some_bind]
  rfl

theorem matchPhotoPattern_name (d8 d6 : List Char) (h8 : d8.length = 8)
    (h6 : d6.length = 6) (hd8 : ∀ c ∈ d8, c.isDigit = true)
    (hd6 : ∀ c ∈ d6, c.isDigit = true) :
    matchPhotoPattern (photoNameChars d8 d6) = some (d8, d6) := by
  have e0 : photoNameChars d8 d6
      = 'c' :: ('a' :: 't' :: '_' :: (d8 ++ ['_'] ++ d6 ++ ['.', 'j', 'p', 'g'])) := by
    unfold photoNameChars
    simp
  rw [e0]
  unfold matchPhotoPattern
  rw [← e0, matchHere_name d8 d6 h8 h6 hd8 hd6]

/-- C8: `parseTimestamp` round-trips — for every valid key of the form
`cat_YYYYMMDD_HHMMSS.jpg` (digit groups denoting an in-range UTC datetime),
rendering the UTC instant returned by `parseFileName` back through the
`getUTC*` accessors at the pattern's widths reproduces exactly the fourteen
digits that were parsed. -/
theorem parse_digits_roundtrip (d8 d6 : List Char) (t : Int)
    (h8 : d8.length = 8) (h6 : d6.length = 6)
    (hd8 : ∀ c ∈ d8, c.isDigit = true) (hd6 : ∀ c ∈ d6, c.isDigit = true)
    (hv : ValidDateTime (natOfDigits (d8.take 4)) (natOfDigits ((d8.drop 4).take 2))
        (natOfDigits ((d8.drop 6).take 2)) (natOfDigits (d6.take 2))
        (natOfDigits ((d6.drop 2).take 2)) (natOfDigits ((d6.drop 4).take 2)))
    (hparse : parseFileNameUTC (String.mk (photoNameChars d8 d6)) = some t) :
    fourteenDigits t = d8 ++ d6 := by
  unfold parseFileNameUTC at hparse
  have htl : (String.mk (photoNameChars d8 d6)).toList = photoNameChars d8 d6 := rfl
  rw [htl, matchPhotoPattern_name d8 d6 h8 h6 hd8 hd6] at hparse
  simp only [Option.map_some', Option.some.injEq] at hparse
  subst hparse
  unfold fourteenDigits
  simp only [fieldsOfDigits]
  rw [utcFieldsOfMs_utcMsOfFields _ _ _ _ _ _ hv]
  have seg4 : ∀ (l : List Char), l.length = 4 → (∀ c ∈ l, c.isDigit = true) →
      padDigits 4 (natOfDigits l) = l := by
    intro l hl hd
    rw [← hl]
    exact padDigits_natOfDigits l hd
  have seg2 : ∀ (l : List Char), l.length = 2 → (∀ c ∈ l, c.isDigit = true) →
      padDigits 2 (natOfDigits l) = l := by
    intro l hl hd
    rw [← hl]
    exact padDigits_natOfDigits l hd
  rw [seg4 (d8.take 4) (by rw [List.length_take, h8]; omega) (fun c hc =>
    hd8 c (List.mem_of_mem_take hc))]
  rw [seg2 ((d8.drop 4).take 2) (by rw [List.length_take, List.length_drop, h8]; omega)
    (fun c hc => hd8 c (List.mem_of_mem_drop (List.mem_of_mem_take hc)))]
  rw [seg2 ((d8.drop 6).take 2) (by rw [List.length_take, List.length_drop, h8]; omega)
    (fun c hc => hd8 c (List.mem_of_mem_drop (List.mem_of_mem_take hc)))]
  rw [seg2 (d6.take 2) (by rw [List.length_take, h6]; omega) (fun c hc =>
    hd6 c (List.mem_of_mem_take hc))]
  rw [seg2 ((d6.drop 2).take 2) (by rw [List.length_take, List.length_drop, h6]; omega)
    (fun c hc => hd6 c (List.mem_of_mem_drop (List.mem_of_mem_take hc)))]
  rw [seg2 ((d6.drop 4).take 2) (by rw [List.length_take, List.length_drop, h6]; omega)
    (fun c hc => hd6 c (List.mem_of_mem_drop (List.mem_of_mem_take hc)))]
  have hd8eq : d8.take 4 ++ ((d8.drop 4).take 2 ++ (d8.drop 6).take 2) = d8 := by
    have h1 : (d8.drop 6).take 2 = d8.drop 6 :=
      List.take_of_length_le (by rw [List.length_drop, h8])
    conv_rhs => rw [← List.take_append_drop 4 d8]
    congr 1
    conv_rhs => rw [← List.take_append_drop 2 (d8.drop 4)]
    congr 1
    rw [List.drop_drop]
    exact h1
  have hd6eq : d6.take 2 ++ ((d6.drop 2).take 2 ++ (d6.drop 4).take 2) = d6 := by
    have h1 : (d6.drop 4).take 2 = d6.drop 4 :=
      List.take_of_length_le (by rw [List.length_drop, h6])
    conv_rhs => rw [← List.take_append_drop 2 d6]
    congr 1
    conv_rhs => rw [← List.take_append_drop 2 (d6.drop 2)]
    congr 1
    rw [List.drop_drop]
    exact h1
  calc d8.take 4 ++ (d8.drop 4).take 2 ++ (d8.drop 6).take 2 ++ d6.take 2
        ++ (d6.drop 2).take 2 ++ (d6.drop 4).take 2
      = (d8.take 4 ++ ((d8.drop 4).take 2 ++ (d8.drop 6).take 2))
        ++ (d6.take 2 ++ ((d6.drop 2).take 2 ++ (d6.drop 4).take 2)) := by
        simp [List.append_assoc]
    _ = d8 ++ d6 := by rw [hd8eq, hd6eq]

theorem parse_digits_roundtrip_witness :
    fourteenDigits (utcMsOfFields 2025 10 30 3 28 11)
      = "20251030".toList ++ "032811".toList :=
  parse_digits_roundtrip "20251030".toList "032811".toList
    (utcMsOfFields 2025 10 30 3 28 11)
    (by decide) (by decide) (by decide) (by decide) (by decide) (by decide)

end CatView
